import Mathlib

/-! TodoList (React): verification of `src/App.js`.

A shallow embedding of the `App` component of `src/App.js`:

* the React state cells (`todos`, `taskInput`, `filter`, `isSortEnabled`,
  `deletedTask`, `showUndo`) are the fields of `AppState`;
* every event handler (`addTask`, `toggleComplete`, `deleteTask`,
  `undoDelete`, the `setTimeout` callback) is a function `AppState → AppState`;
* the derived values `filteredTodos` / `sortedTodos` are pure functions of the
  state;
* the `useState` initializer and the persistence effect are functions over the
  content of `localStorage`.

JavaScript strings are sequences of UTF-16 code units, and are modelled as such.
-/

namespace TodoApp

/-! ## JavaScript strings -/

/-- One UTF-16 code unit. -/
abbrev CodeUnit := Fin 65536

/-- A JavaScript string value: a finite sequence of UTF-16 code units. -/
abbrev JsString := List CodeUnit

/-- UTF-16 encoding of one Unicode scalar value. -/
def utf16Char (c : Char) : List CodeUnit :=
  if c.toNat < 0x10000 then [Fin.ofNat c.toNat]
  else
    [Fin.ofNat (0xD800 + (c.toNat - 0x10000) / 0x400),
     Fin.ofNat (0xDC00 + (c.toNat - 0x10000) % 0x400)]

/-- The JavaScript string denoted by a string literal. -/
def utf16 (s : String) : JsString :=
  s.data.flatMap utf16Char

/-- ECMAScript `WhiteSpace` and `LineTerminator` code points, the characters
that `String.prototype.trim` strips: TAB, LF, VT, FF, CR, SP, NBSP, the
`Zs` category (U+1680, U+2000..U+200A, U+202F, U+205F, U+3000), LS, PS and
the BOM U+FEFF. -/
def isWhiteSpace (c : CodeUnit) : Bool :=
  (0x09 ≤ c.val && c.val ≤ 0x0D) || c.val == 0x20 || c.val == 0xA0 ||
  c.val == 0x1680 || (0x2000 ≤ c.val && c.val ≤ 0x200A) ||
  c.val == 0x2028 || c.val == 0x2029 || c.val == 0x202F ||
  c.val == 0x205F || c.val == 0x3000 || c.val == 0xFEFF

/-- `String.prototype.trim`: strip white space from both ends. -/
def trim (s : JsString) : JsString :=
  ((s.dropWhile isWhiteSpace).reverse.dropWhile isWhiteSpace).reverse

/-! ## Data model -/

/-- A task record `{ title, isComplete }`. -/
structure Task where
  title : JsString
  isComplete : Bool
  deriving DecidableEq, Repr

/-- The state cells of `App` (lines 5-13), together with the bookkeeping of the
host's timer queue: the current time in milliseconds and the due times of the
pending `setTimeout` callbacks, in the order they were scheduled.
`deletedTask = none` stands for both `null` and `undefined`. -/
structure AppState where
  todos : List Task
  taskInput : JsString
  filter : String
  isSortEnabled : Bool
  deletedTask : Option Task
  showUndo : Bool
  now : Nat
  timers : List Nat
  deriving DecidableEq, Repr

/-- The state right after mounting with the collection `todos`
(`useState` defaults of lines 9-13). -/
def initialState (todos : List Task) : AppState :=
  { todos := todos, taskInput := [], filter := "all", isSortEnabled := false,
    deletedTask := none, showUndo := false, now := 0, timers := [] }

/-! ## Event handlers -/

/-- `Array.prototype.filter` with a callback that also looks at the index. -/
def filterWithIndex {α : Type} (p : α → Nat → Bool) (l : List α) : List α :=
  (l.enum.filter (fun x => p x.2 x.1)).map Prod.snd

/-- `setTask` / `setTaskInput`: the `onChange` handler of the input field. -/
def setTaskInput (v : JsString) (s : AppState) : AppState :=
  { s with taskInput := v }

/-- `addTask` (lines 19-25). -/
def addTask (s : AppState) : AppState :=
  if trim s.taskInput = [] then s
  else
    { s with
      todos := s.todos ++ [{ title := s.taskInput, isComplete := false }]
      taskInput := [] }

/-- `toggleComplete` (lines 27-33). -/
def toggleComplete (index : Nat) (s : AppState) : AppState :=
  { s with
    todos := s.todos.mapIdx (fun i todo =>
      if i = index then { todo with isComplete := !todo.isComplete } else todo) }

/-- `deleteTask` (lines 35-46). `todos[index]` is `undefined` when `index` is
out of range; the call to `setTimeout` appends a timer due in 3000 ms. -/
def deleteTask (index : Nat) (s : AppState) : AppState :=
  { s with
    todos := filterWithIndex (fun _ i => i != index) s.todos
    deletedTask := s.todos[index]?
    showUndo := true
    timers := s.timers ++ [s.now + 3000] }

/-- The callback handed to `setTimeout` (lines 42-45). -/
def timerCallback (s : AppState) : AppState :=
  { s with showUndo := false, deletedTask := none }

/-- `undoDelete` (lines 48-54). A task object is truthy, `null` and
`undefined` are falsy. -/
def undoDelete (s : AppState) : AppState :=
  match s.deletedTask with
  | some t => { s with todos := s.todos ++ [t], showUndo := false, deletedTask := none }
  | none => s

/-- The passage of `d` milliseconds without user input: every pending timer
that is due by then runs its callback (in scheduling order) and leaves the
queue. -/
def elapse (d : Nat) (s : AppState) : AppState :=
  let t := s.now + d
  let fired := (s.timers.filter (fun due => due ≤ t)).foldl (fun st _ => timerCallback st) s
  { fired with now := t, timers := s.timers.filter (fun due => ¬ due ≤ t) }

/-- `setFilter` as called by the three filter buttons. -/
def setFilter (f : String) (s : AppState) : AppState :=
  { s with filter := f }

/-- The `onClick` handler of the sort button: `setIsSortEnabled(prev => !prev)`. -/
def toggleSort (s : AppState) : AppState :=
  { s with isSortEnabled := !s.isSortEnabled }

/-! ## Derived view -/

/-- `filteredTodos` (lines 56-60). -/
def filteredTodos (s : AppState) : List Task :=
  s.todos.filter (fun todo =>
    if s.filter = "completed" then todo.isComplete
    else if s.filter = "incomplete" then !todo.isComplete
    else true)

/-- `Array.prototype.sort` with a comparator on a fresh array: the stable sort
that puts `a` before `b` when `cmp a b ≤ 0`. -/
def arraySort {α : Type} (cmp : α → α → Int) (l : List α) : List α :=
  l.insertionSort (fun a b => cmp a b ≤ 0)

/-- `sortedTodos` (lines 62-64). The host's `String.prototype.localeCompare`
is the parameter `localeCompare`. -/
def sortedTodos (localeCompare : JsString → JsString → Int) (s : AppState) : List Task :=
  if s.isSortEnabled then
    arraySort (fun a b => localeCompare a.title b.title) (filteredTodos s)
  else filteredTodos s

/-- The user gestures and host events that drive `App`. -/
inductive Event where
  | typeDraft (v : JsString)
  | addTask
  | toggleComplete (index : Nat)
  | deleteTask (index : Nat)
  | undoDelete
  | elapse (d : Nat)
  | setFilter (f : String)
  | toggleSort
  deriving DecidableEq, Repr

/-- The effect of one event on the state. -/
def step (s : AppState) : Event → AppState
  | .typeDraft v => setTaskInput v s
  | .addTask => addTask s
  | .toggleComplete i => toggleComplete i s
  | .deleteTask i => deleteTask i s
  | .undoDelete => undoDelete s
  | .elapse d => elapse d s
  | .setFilter f => setFilter f s
  | .toggleSort => toggleSort s

/-- The state after a sequence of events. -/
def run (s : AppState) (events : List Event) : AppState :=
  events.foldl step s

/-! ## Persistence: `localStorage`, `JSON.parse`, `JSON.stringify`

`JSON.parse` follows the JSON grammar (ECMA-404) over code units. It is a
recursive-descent reader whose recursion is bounded by a fuel argument; the
entry point `jsonParse` supplies `2 * length + 1`, more than any descent on a
text of that length can use. -/

/-- A JavaScript value as produced by `JSON.parse`. A number is kept as the
exact decimal `± mantissa × 10 ^ exponent` its literal denotes; an object is
the list of its members in order of appearance. -/
inductive JsValue where
  | null
  | bool (b : Bool)
  | num (negative : Bool) (mantissa : Nat) (exponent : Int)
  | str (s : JsString)
  | arr (elements : List JsValue)
  | obj (members : List (JsString × JsValue))

/-- JSON white space: space, TAB, LF, CR. -/
def isJsonWhiteSpace (c : CodeUnit) : Bool :=
  c.val == 0x20 || c.val == 0x09 || c.val == 0x0A || c.val == 0x0D

def skipWhiteSpace (input : JsString) : JsString :=
  input.dropWhile isJsonWhiteSpace

/-- After the literal `lit` comes the returned remainder. -/
def expectLiteral (lit input : JsString) : Option JsString :=
  if input.take lit.length = lit then some (input.drop lit.length) else none

def hexDigitValue (c : CodeUnit) : Option Nat :=
  if 0x30 ≤ c.val ∧ c.val ≤ 0x39 then some (c.val - 0x30)
  else if 0x41 ≤ c.val ∧ c.val ≤ 0x46 then some (c.val - 0x41 + 10)
  else if 0x61 ≤ c.val ∧ c.val ≤ 0x66 then some (c.val - 0x61 + 10)
  else none

/-- The code unit written `\uXXXX`. -/
def parseHex4 (h₁ h₂ h₃ h₄ : CodeUnit) : Option CodeUnit :=
  match hexDigitValue h₁, hexDigitValue h₂, hexDigitValue h₃, hexDigitValue h₄ with
  | some a, some b, some c, some d => some (Fin.ofNat (a * 4096 + b * 256 + c * 16 + d))
  | _, _, _, _ => none

/-- The code unit denoted by the character after a backslash, for the
two-character escapes `\"`, `\\`, `\/`, `\b`, `\f`, `\n`, `\r`, `\t`. -/
def simpleEscape (c : CodeUnit) : Option CodeUnit :=
  if c.val = 0x22 then some 0x22
  else if c.val = 0x5C then some 0x5C
  else if c.val = 0x2F then some 0x2F
  else if c.val = 0x62 then some 0x08
  else if c.val = 0x66 then some 0x0C
  else if c.val = 0x6E then some 0x0A
  else if c.val = 0x72 then some 0x0D
  else if c.val = 0x74 then some 0x09
  else none

/-- Reads a JSON string after its opening quote, up to and including the
closing quote; yields the string value and the remaining input. Unescaped
control characters are rejected. -/
def parseStringBody : JsString → Option (JsString × JsString)
  | [] => none
  | c :: rest =>
    if c.val = 0x22 then some ([], rest)
    else if c.val = 0x5C then
      match rest with
      | [] => none
      | e :: rest₁ =>
        if e.val = 0x75 then
          match rest₁ with
          | h₁ :: h₂ :: h₃ :: h₄ :: rest₂ =>
            match parseHex4 h₁ h₂ h₃ h₄, parseStringBody rest₂ with
            | some u, some (s, out) => some (u :: s, out)
            | _, _ => none
          | _ => none
        else
          match simpleEscape e, parseStringBody rest₁ with
          | some u, some (s, out) => some (u :: s, out)
          | _, _ => none
    else if c.val < 0x20 then none
    else
      match parseStringBody rest with
      | some (s, out) => some (c :: s, out)
      | none => none

def digitValue (c : CodeUnit) : Option Nat :=
  if 0x30 ≤ c.val ∧ c.val ≤ 0x39 then some (c.val - 0x30) else none

/-- The longest run of decimal digits at the head of the input. -/
def takeDigits : JsString → List Nat × JsString
  | [] => ([], [])
  | c :: rest =>
    match digitValue c with
    | some d => (d :: (takeDigits rest).1, (takeDigits rest).2)
    | none => ([], c :: rest)

def digitsToNat (ds : List Nat) : Nat :=
  ds.foldl (fun acc d => acc * 10 + d) 0

/-- The optional fraction `. digit+` of a number. -/
def parseFraction (input : JsString) : Option (List Nat × JsString) :=
  match input with
  | [] => some ([], [])
  | c :: rest =>
    if c.val = 0x2E then
      match takeDigits rest with
      | ([], _) => none
      | (ds, out) => some (ds, out)
    else some ([], c :: rest)

/-- An optional sign `+` or `-`; the flag says whether it was `-`. -/
def optionalSign (input : JsString) : Bool × JsString :=
  match input with
  | [] => (false, [])
  | c :: rest =>
    if c.val = 0x2D then (true, rest)
    else if c.val = 0x2B then (false, rest)
    else (false, c :: rest)

/-- The optional exponent `(e|E) (+|-)? digit+` of a number. -/
def parseExponent (input : JsString) : Option (Int × JsString) :=
  match input with
  | [] => some (0, [])
  | c :: rest =>
    if c.val = 0x65 ∨ c.val = 0x45 then
      match takeDigits (optionalSign rest).2 with
      | ([], _) => none
      | (ds, out) =>
        some (if (optionalSign rest).1 then -(digitsToNat ds : Int) else digitsToNat ds, out)
    else some (0, c :: rest)

/-- An optional leading `-`. -/
def optionalMinus (input : JsString) : Bool × JsString :=
  match input with
  | [] => (false, [])
  | c :: rest => if c.val = 0x2D then (true, rest) else (false, c :: rest)

/-- The integer part `0 | [1-9] digit*` whose first digit `d` has been read. -/
def parseInteger (d : Nat) (rest : JsString) : List Nat × JsString :=
  if d = 0 then ([0], rest) else (d :: (takeDigits rest).1, (takeDigits rest).2)

/-- Reads a JSON number `-? (0 | [1-9] digit*) fraction? exponent?`. -/
def parseNumber (input : JsString) : Option (JsValue × JsString) :=
  match (optionalMinus input).2 with
  | [] => none
  | c :: rest =>
    match digitValue c with
    | none => none
    | some d =>
      match parseFraction (parseInteger d rest).2 with
      | none => none
      | some (frac, afterFrac) =>
        match parseExponent afterFrac with
        | none => none
        | some (e, out) =>
          some (.num (optionalMinus input).1
            (digitsToNat ((parseInteger d rest).1 ++ frac)) (e - frac.length), out)

mutual

/-- Reads one JSON value, white space before it included. -/
def parseValue : Nat → JsString → Option (JsValue × JsString)
  | 0, _ => none
  | fuel + 1, input =>
    match skipWhiteSpace input with
    | [] => none
    | c :: rest =>
      if c.val = 0x5B then
        match skipWhiteSpace rest with
        | [] => none
        | d :: rest₁ =>
          if d.val = 0x5D then some (.arr [], rest₁)
          else (parseElements fuel rest).map (fun r => (.arr r.1, r.2))
      else if c.val = 0x7B then
        match skipWhiteSpace rest with
        | [] => none
        | d :: rest₁ =>
          if d.val = 0x7D then some (.obj [], rest₁)
          else (parseMembers fuel rest).map (fun r => (.obj r.1, r.2))
      else if c.val = 0x22 then
        (parseStringBody rest).map (fun r => (.str r.1, r.2))
      else if c.val = 0x74 then
        (expectLiteral (utf16 "true") (c :: rest)).map (fun out => (.bool true, out))
      else if c.val = 0x66 then
        (expectLiteral (utf16 "false") (c :: rest)).map (fun out => (.bool false, out))
      else if c.val = 0x6E then
        (expectLiteral (utf16 "null") (c :: rest)).map (fun out => (.null, out))
      else parseNumber (c :: rest)

/-- Reads the elements of a non-empty array, up to and including `]`. -/
def parseElements : Nat → JsString → Option (List JsValue × JsString)
  | 0, _ => none
  | fuel + 1, input =>
    match parseValue fuel input with
    | none => none
    | some (v, rest) =>
      match skipWhiteSpace rest with
      | [] => none
      | c :: rest₁ =>
        if c.val = 0x5D then some ([v], rest₁)
        else if c.val = 0x2C then
          (parseElements fuel rest₁).map (fun r => (v :: r.1, r.2))
        else none

/-- Reads the members of a non-empty object, up to and including the closing brace. -/
def parseMembers : Nat → JsString → Option (List (JsString × JsValue) × JsString)
  | 0, _ => none
  | fuel + 1, input =>
    match skipWhiteSpace input with
    | [] => none
    | c :: rest =>
      if c.val = 0x22 then
        match parseStringBody rest with
        | none => none
        | some (key, rest₁) =>
          match skipWhiteSpace rest₁ with
          | [] => none
          | d :: rest₂ =>
            if d.val = 0x3A then
              match parseValue fuel rest₂ with
              | none => none
              | some (v, rest₃) =>
                match skipWhiteSpace rest₃ with
                | [] => none
                | e :: rest₄ =>
                  if e.val = 0x7D then some ([(key, v)], rest₄)
                  else if e.val = 0x2C then
                    (parseMembers fuel rest₄).map (fun r => ((key, v) :: r.1, r.2))
                  else none
            else none
      else none

end

/-- The JavaScript value of a task record, an object with the members `title`
and `isComplete` in this order. -/
def taskToJs (t : Task) : JsValue :=
  .obj [(utf16 "title", .str t.title), (utf16 "isComplete", .bool t.isComplete)]

/-- The JavaScript value of a task collection: the array of its records. -/
def todosToJs (todos : List Task) : JsValue :=
  .arr (todos.map taskToJs)

def hexDigit (n : Nat) : CodeUnit :=
  if n < 10 then Fin.ofNat (0x30 + n) else Fin.ofNat (0x61 + (n - 10))

/-- `UnicodeEscape`: a backslash, `u` and four lower-case hexadecimal digits. -/
def unicodeEscape (c : CodeUnit) : JsString :=
  [0x5C, 0x75, hexDigit (c.val / 4096), hexDigit (c.val / 256 % 16),
   hexDigit (c.val / 16 % 16), hexDigit (c.val % 16)]

def isHighSurrogate (c : CodeUnit) : Bool := 0xD800 ≤ c.val && c.val ≤ 0xDBFF

def isLowSurrogate (c : CodeUnit) : Bool := 0xDC00 ≤ c.val && c.val ≤ 0xDFFF

/-- The text `QuoteJSONString` emits for a code unit that is not a surrogate. -/
def quoteUnit (c : CodeUnit) : JsString :=
  if c.val = 0x08 then [0x5C, 0x62]
  else if c.val = 0x09 then [0x5C, 0x74]
  else if c.val = 0x0A then [0x5C, 0x6E]
  else if c.val = 0x0C then [0x5C, 0x66]
  else if c.val = 0x0D then [0x5C, 0x72]
  else if c.val = 0x22 then [0x5C, 0x22]
  else if c.val = 0x5C then [0x5C, 0x5C]
  else if c.val < 0x20 then unicodeEscape c
  else [c]

/-- The text between the quotes in `QuoteJSONString`: the string is read by code
points, a surrogate pair is copied and a lone surrogate is escaped. -/
def quoteBody : JsString → JsString
  | [] => []
  | [c] =>
    if isHighSurrogate c || isLowSurrogate c then unicodeEscape c else quoteUnit c
  | c :: d :: rest =>
    if isHighSurrogate c && isLowSurrogate d then c :: d :: quoteBody rest
    else if isHighSurrogate c || isLowSurrogate c then unicodeEscape c ++ quoteBody (d :: rest)
    else quoteUnit c ++ quoteBody (d :: rest)

/-- A concrete consistent comparator on strings, used to exercise the
development: lexicographic order of the code units (the order of `<` on
JavaScript strings). -/
def codeUnitCompare (a b : JsString) : Int :=
  if a < b then -1 else if b < a then 1 else 0

/-- The data-model invariant on titles: every record of the collection, and a
record held in the undo slot, has a title that is non-empty after trimming. -/
def TitlesNonBlank (s : AppState) : Prop :=
  (∀ t ∈ s.todos, trim t.title ≠ []) ∧ (∀ t, s.deletedTask = some t → trim t.title ≠ [])

/-! ## Auxiliary facts about the list primitives -/

theorem filter_enumFrom_fst_ne {α : Type} (l : List α) (m n : Nat) (h : n < m) :
    (l.enumFrom m).filter (fun x => x.1 != n) = l.enumFrom m := by
  induction l generalizing m with
  | nil => rfl
  | cons a l ih =>
    have hne : m ≠ n := by omega
    simp [List.enumFrom_cons, List.filter_cons, hne, ih (m + 1) (by omega)]

theorem filter_enumFrom_erase {α : Type} (l : List α) (n p : Nat) :
    ((l.enumFrom n).filter (fun x => x.1 != n + p)).map Prod.snd = l.eraseIdx p := by
  induction l generalizing n p with
  | nil => simp
  | cons a l ih =>
    cases p with
    | zero =>
      simp [List.enumFrom_cons, List.filter_cons, filter_enumFrom_fst_ne l (n + 1) n (by omega)]
    | succ p =>
      have hne : n ≠ n + (p + 1) := by omega
      have := ih (n + 1) p
      rw [show n + 1 + p = n + (p + 1) by omega] at this
      simp [List.enumFrom_cons, List.filter_cons, hne, this]

/-- Dropping the elements whose index is `p` is erasing position `p`. -/
theorem filterWithIndex_ne_eq_eraseIdx {α : Type} (l : List α) (p : Nat) :
    filterWithIndex (fun _ i => i != p) l = l.eraseIdx p := by
  have := filter_enumFrom_erase l 0 p
  simpa [filterWithIndex, List.enum] using this

/-- A string trims to the empty string exactly when it consists of white space only. -/
theorem trim_eq_nil_iff (s : JsString) :
    trim s = [] ↔ ∀ c ∈ s, isWhiteSpace c = true := by
  unfold trim
  rw [List.reverse_eq_nil_iff, List.dropWhile_eq_nil_iff]
  constructor
  · intro h
    have hnil : s.dropWhile isWhiteSpace = [] := by
      cases hd : s.dropWhile isWhiteSpace with
      | nil => rfl
      | cons x xs =>
        have hx : isWhiteSpace x = true := h x (by simp [hd])
        have hne : s.dropWhile isWhiteSpace ≠ [] := by simp [hd]
        have hnot := List.head_dropWhile_not isWhiteSpace s hne
        simp [hd, hx] at hnot
    exact List.dropWhile_eq_nil_iff.mp hnil
  · intro h x hx
    have hx1 : x ∈ List.dropWhile isWhiteSpace s := List.mem_reverse.mp hx
    exact h x ((List.dropWhile_sublist _).subset hx1)

/-! ## Adding a task -/

/-- C1 (as stated, refuted): with the draft `" a"` on an empty collection,
`addTask` stores the record titled `" a"`, white space included, and not the
record titled `"a"` that the trimmed draft would give. -/
theorem addTask_stores_untrimmed_title :
    (addTask (setTaskInput (utf16 " a") (initialState []))).todos
        = [{ title := utf16 " a", isComplete := false }] ∧
      trim (utf16 " a") = utf16 "a" ∧
      (addTask (setTaskInput (utf16 " a") (initialState []))).todos
        ≠ (initialState []).todos ++ [{ title := trim (utf16 " a"), isComplete := false }] := by
  decide

/-- C1 (amended): for every collection and every draft whose trimmed form is
non-empty, `addTask` yields exactly the old collection followed by one new
record whose title is the draft text as typed (not trimmed) and whose
`isComplete` is false. -/
theorem addTask_appends_draft (s : AppState) (h : trim s.taskInput ≠ []) :
    (addTask s).todos = s.todos ++ [{ title := s.taskInput, isComplete := false }] := by
  simp [addTask, h]

theorem addTask_appends_draft_witness :
    trim (setTaskInput (utf16 " Buy milk ") (initialState [])).taskInput ≠ [] ∧
      (addTask (setTaskInput (utf16 " Buy milk ") (initialState []))).todos
        = (setTaskInput (utf16 " Buy milk ") (initialState [])).todos
            ++ [{ title := (setTaskInput (utf16 " Buy milk ") (initialState [])).taskInput,
                  isComplete := false }] :=
  ⟨by decide, addTask_appends_draft _ (by decide)⟩

/-- C2: for every collection and every draft that is empty or consists only of
white space, `addTask` leaves the task collection unchanged (indeed the whole
state is unchanged). -/
theorem addTask_blank_noop (s : AppState) (h : ∀ c ∈ s.taskInput, isWhiteSpace c = true) :
    (addTask s).todos = s.todos ∧ addTask s = s := by
  have ht : trim s.taskInput = [] := (trim_eq_nil_iff _).mpr h
  simp [addTask, ht]

theorem addTask_blank_noop_witness :
    (∀ c ∈ (setTaskInput (utf16 " \t ") (initialState [⟨utf16 "x", true⟩])).taskInput,
        isWhiteSpace c = true) ∧
      ((addTask (setTaskInput (utf16 " \t ") (initialState [⟨utf16 "x", true⟩]))).todos
          = (setTaskInput (utf16 " \t ") (initialState [⟨utf16 "x", true⟩])).todos ∧
        addTask (setTaskInput (utf16 " \t ") (initialState [⟨utf16 "x", true⟩]))
          = setTaskInput (utf16 " \t ") (initialState [⟨utf16 "x", true⟩])) := by
  have h : ∀ c ∈ (setTaskInput (utf16 " \t ") (initialState [⟨utf16 "x", true⟩])).taskInput,
      isWhiteSpace c = true := by
    rw [← List.all_eq_true]; decide
  exact ⟨h, addTask_blank_noop _ h⟩

/-! ## Toggling completion -/

/-- C3: for every collection and every valid index `p`, `toggleComplete p`
yields a collection of the same length in which the record at `p` has the same
title and the negated `isComplete`, and every record at another index is the
record that was there before. -/
theorem toggleComplete_frame (s : AppState) (p : Nat) (hp : p < s.todos.length) :
    (toggleComplete p s).todos.length = s.todos.length ∧
      (toggleComplete p s).todos[p]?
        = some { title := s.todos[p].title, isComplete := !s.todos[p].isComplete } ∧
      ∀ i, i ≠ p → (toggleComplete p s).todos[i]? = s.todos[i]? := by
  refine ⟨by simp [toggleComplete], ?_, ?_⟩
  · simp [toggleComplete, List.getElem?_mapIdx, List.getElem?_eq_getElem hp]
  · intro i hi
    simp only [toggleComplete, List.getElem?_mapIdx, if_neg hi]
    cases s.todos[i]? <;> rfl

theorem toggleComplete_frame_witness :
    (toggleComplete 1 (initialState [⟨utf16 "a", false⟩, ⟨utf16 "b", true⟩])).todos.length
        = (initialState [⟨utf16 "a", false⟩, ⟨utf16 "b", true⟩]).todos.length ∧
      (toggleComplete 1 (initialState [⟨utf16 "a", false⟩, ⟨utf16 "b", true⟩])).todos[1]?
        = some { title := utf16 "b", isComplete := false } ∧
      ∀ i, i ≠ 1 →
        (toggleComplete 1 (initialState [⟨utf16 "a", false⟩, ⟨utf16 "b", true⟩])).todos[i]?
          = (initialState [⟨utf16 "a", false⟩, ⟨utf16 "b", true⟩]).todos[i]? :=
  toggleComplete_frame (initialState [⟨utf16 "a", false⟩, ⟨utf16 "b", true⟩]) 1 (by decide)

/-! ## Delete and undo -/

/-- C4: for every collection and every valid index `p`, `deleteTask p` leaves
the original collection with the record at `p` removed (the others in their
relative order, one record fewer), and `undoDelete` right after it (no timer
fires in between) appends the removed record, unchanged, at the end; afterwards
the undo slot is empty and the undo flag is false. -/
theorem deleteTask_undoDelete (s : AppState) (p : Nat) (hp : p < s.todos.length) :
    (deleteTask p s).todos = s.todos.take p ++ s.todos.drop (p + 1) ∧
      (deleteTask p s).todos.length + 1 = s.todos.length ∧
      (undoDelete (deleteTask p s)).todos
        = s.todos.take p ++ s.todos.drop (p + 1) ++ [s.todos[p]] ∧
      (undoDelete (deleteTask p s)).deletedTask = none ∧
      (undoDelete (deleteTask p s)).showUndo = false := by
  have herase : (deleteTask p s).todos = s.todos.take p ++ s.todos.drop (p + 1) := by
    simp [deleteTask, filterWithIndex_ne_eq_eraseIdx, List.eraseIdx_eq_take_drop_succ]
  have hslot : (deleteTask p s).deletedTask = some s.todos[p] := by
    simp [deleteTask, List.getElem?_eq_getElem hp]
  refine ⟨herase, ?_, ?_, ?_, ?_⟩
  · rw [herase]
    simp only [List.length_append, List.length_take, List.length_drop]
    omega
  · simp only [undoDelete, hslot, herase]
  · simp only [undoDelete, hslot]
  · simp only [undoDelete, hslot]

theorem deleteTask_undoDelete_witness :
    (deleteTask 0 (initialState [⟨utf16 "a", true⟩, ⟨utf16 "b", false⟩])).todos
        = [⟨utf16 "b", false⟩] ∧
      (undoDelete (deleteTask 0 (initialState [⟨utf16 "a", true⟩, ⟨utf16 "b", false⟩]))).todos
        = [⟨utf16 "b", false⟩, ⟨utf16 "a", true⟩] ∧
      (undoDelete (deleteTask 0 (initialState [⟨utf16 "a", true⟩, ⟨utf16 "b", false⟩]))).deletedTask
        = none ∧
      (undoDelete (deleteTask 0 (initialState [⟨utf16 "a", true⟩, ⟨utf16 "b", false⟩]))).showUndo
        = false := by
  have h := deleteTask_undoDelete
    (initialState [⟨utf16 "a", true⟩, ⟨utf16 "b", false⟩]) 0 (by decide)
  exact ⟨h.1, h.2.2.1, h.2.2.2.1, h.2.2.2.2⟩

/-! ## Filtering -/

/-- C6: for every collection the filtered sequence is a subsequence of the
collection in its original order; in mode `all` it is the whole collection, in
mode `completed` it holds every record with `isComplete = true` (as often as
the collection does) and no other record, and in mode `incomplete` every record
with `isComplete = false` and no other. -/
theorem filteredTodos_spec (s : AppState) :
    (filteredTodos s).Sublist s.todos ∧
      filteredTodos (setFilter "all" s) = s.todos ∧
      (∀ t : Task, (filteredTodos (setFilter "completed" s)).count t
          = if t.isComplete = true then s.todos.count t else 0) ∧
      (∀ t : Task, (filteredTodos (setFilter "incomplete" s)).count t
          = if t.isComplete = false then s.todos.count t else 0) := by
  refine ⟨List.filter_sublist _, ?_, ?_, ?_⟩
  · simp [filteredTodos, setFilter]
  · intro t
    simp only [filteredTodos, setFilter, if_true]
    by_cases ht : t.isComplete = true
    · rw [if_pos ht, List.count_filter ht]
    · rw [if_neg ht]
      exact List.count_eq_zero_of_not_mem (fun hmem => ht (List.mem_filter.mp hmem).2)
  · intro t
    have hne : ("incomplete" : String) ≠ "completed" := by decide
    simp only [filteredTodos, setFilter, if_neg hne, if_true]
    by_cases ht : t.isComplete = false
    · rw [if_pos ht, List.count_filter (by simp [ht])]
    · rw [if_neg ht]
      refine List.count_eq_zero_of_not_mem (fun hmem => ht ?_)
      simpa using (List.mem_filter.mp hmem).2

/-! ## The title invariant -/

theorem foldl_timerCallback_todos (l : List Nat) (s : AppState) :
    (l.foldl (fun st _ => timerCallback st) s).todos = s.todos ∧
      ((l.foldl (fun st _ => timerCallback st) s).deletedTask = none ∨
        (l.foldl (fun st _ => timerCallback st) s).deletedTask = s.deletedTask) := by
  induction l generalizing s with
  | nil => simp
  | cons a l ih =>
    obtain ⟨h1, h2⟩ := ih (timerCallback s)
    refine ⟨by simpa [timerCallback] using h1, ?_⟩
    rcases h2 with h2 | h2
    · exact Or.inl h2
    · exact Or.inl (by simpa [timerCallback] using h2)

theorem titlesNonBlank_step (s : AppState) (e : Event) (h : TitlesNonBlank s) :
    TitlesNonBlank (step s e) := by
  obtain ⟨htodos, hslot⟩ := h
  cases e with
  | typeDraft v => exact ⟨htodos, hslot⟩
  | addTask =>
    by_cases hb : trim s.taskInput = []
    · have hs : step s .addTask = s := by simp [step, addTask, hb]
      rw [hs]; exact ⟨htodos, hslot⟩
    · refine ⟨?_, ?_⟩
      · intro t ht
        simp only [step, addTask, if_neg hb, List.mem_append, List.mem_singleton] at ht
        rcases ht with ht | ht
        · exact htodos t ht
        · subst ht; exact hb
      · simpa [step, addTask, hb] using hslot
  | toggleComplete i =>
    refine ⟨?_, hslot⟩
    intro t ht
    simp only [step, toggleComplete, List.mem_mapIdx] at ht
    obtain ⟨j, hj, rfl⟩ := ht
    have hmem : s.todos[j] ∈ s.todos := List.getElem_mem hj
    by_cases hji : j = i
    · simpa [hji] using htodos _ (hji ▸ hmem)
    · simpa [hji] using htodos _ hmem
  | deleteTask i =>
    refine ⟨?_, ?_⟩
    · intro t ht
      simp only [step, deleteTask, filterWithIndex_ne_eq_eraseIdx] at ht
      exact htodos t ((List.eraseIdx_sublist _ _).subset ht)
    · intro t ht
      simp only [step, deleteTask] at ht
      exact htodos t (List.getElem?_mem ht)
  | undoDelete =>
    cases hd : s.deletedTask with
    | none =>
      have hs : step s .undoDelete = s := by simp [step, undoDelete, hd]
      rw [hs]; exact ⟨htodos, hslot⟩
    | some d =>
      refine ⟨?_, ?_⟩
      · intro t ht
        simp only [step, undoDelete, hd, List.mem_append, List.mem_singleton] at ht
        rcases ht with ht | ht
        · exact htodos t ht
        · subst ht; exact hslot _ hd
      · intro t ht
        simp [step, undoDelete, hd] at ht
  | elapse d =>
    obtain ⟨h1, h2⟩ :=
      foldl_timerCallback_todos (s.timers.filter (fun due => due ≤ s.now + d)) s
    refine ⟨?_, ?_⟩
    · intro t ht
      simp only [step, elapse] at ht
      rw [h1] at ht
      exact htodos t ht
    · intro t ht
      simp only [step, elapse] at ht
      rcases h2 with h2 | h2
      · rw [h2] at ht; cases ht
      · rw [h2] at ht; exact hslot t ht
  | setFilter f => exact ⟨htodos, hslot⟩
  | toggleSort => exact ⟨htodos, hslot⟩

theorem titlesNonBlank_run (events : List Event) (s : AppState) (h : TitlesNonBlank s) :
    TitlesNonBlank (run s events) := by
  induction events generalizing s with
  | nil => exact h
  | cons e es ih => exact ih (step s e) (titlesNonBlank_step s e h)

/-- C8: starting from the empty collection with an empty undo slot, after any
sequence of drafts typed, `addTask`, `toggleComplete`, `deleteTask` (with any
index, valid or not), `undoDelete`, timer expiry and filter or sort changes,
every record of the collection has a title that is non-empty after trimming. -/
theorem reachable_titles_nonblank (events : List Event) (t : Task)
    (ht : t ∈ (run (initialState []) events).todos) : trim t.title ≠ [] := by
  have hinit : TitlesNonBlank (initialState []) := by
    constructor
    · intro t ht; cases ht
    · intro t ht; cases ht
  exact (titlesNonBlank_run events (initialState []) hinit).1 t ht

theorem reachable_titles_nonblank_witness :
    trim (⟨utf16 " a", false⟩ : Task).title ≠ [] :=
  reachable_titles_nonblank
    [.typeDraft (utf16 " a"), .addTask, .typeDraft (utf16 "b"), .addTask,
     .deleteTask 1, .deleteTask 7, .undoDelete, .elapse 3000]
    ⟨utf16 " a", false⟩ (by decide)

/-! ## Sorting

`Array.prototype.sort` is specified for a *consistent* comparator: the sign of
`cmp a b` is opposite to the sign of `cmp b a`, and `cmp · · ≤ 0` is
transitive. For such a comparator the result is determined by the language
specification (sorted and stable), and `arraySort` computes it
(`arraySort_unique`). -/

section Sorting

variable {α : Type} (cmp : α → α → Int)

theorem cmp_self_eq_zero (hanti : ∀ a b, cmp a b < 0 ↔ 0 < cmp b a) (a : α) : cmp a a = 0 := by
  have h := hanti a a
  omega

theorem cmp_eq_zero_symm (hanti : ∀ a b, cmp a b < 0 ↔ 0 < cmp b a) {a b : α}
    (h : cmp a b = 0) : cmp b a = 0 := by
  have h1 := hanti a b
  have h2 := hanti b a
  omega

theorem cmp_total (hanti : ∀ a b, cmp a b < 0 ↔ 0 < cmp b a) (a b : α) :
    cmp a b ≤ 0 ∨ cmp b a ≤ 0 := by
  have h1 := hanti a b
  have h2 := hanti b a
  omega

theorem arraySort_perm (l : List α) : (arraySort cmp l).Perm l :=
  List.perm_insertionSort _ l

theorem arraySort_sorted (hanti : ∀ a b, cmp a b < 0 ↔ 0 < cmp b a)
    (htrans : ∀ a b c, cmp a b ≤ 0 → cmp b c ≤ 0 → cmp a c ≤ 0) (l : List α) :
    (arraySort cmp l).Pairwise (fun a b => cmp a b ≤ 0) := by
  haveI : IsTotal α (fun a b => cmp a b ≤ 0) := ⟨cmp_total cmp hanti⟩
  haveI : IsTrans α (fun a b => cmp a b ≤ 0) := ⟨htrans⟩
  exact List.sorted_insertionSort (fun a b => cmp a b ≤ 0) l

theorem filter_tie_orderedInsert (hanti : ∀ a b, cmp a b < 0 ↔ 0 < cmp b a)
    (htrans : ∀ a b c, cmp a b ≤ 0 → cmp b c ≤ 0 → cmp a c ≤ 0) (t a : α) (l : List α) :
    (List.orderedInsert (fun a b => cmp a b ≤ 0) a l).filter (fun x => decide (cmp x t = 0))
      = (a :: l).filter (fun x => decide (cmp x t = 0)) := by
  induction l with
  | nil => simp
  | cons b l ih =>
    by_cases hab : cmp a b ≤ 0
    · simp [List.orderedInsert, hab]
    · rw [List.orderedInsert, if_neg hab, List.filter_cons, ih]
      by_cases ha : cmp a t = 0
      · by_cases hb : cmp b t = 0
        · exact absurd (htrans a t b (by omega) (by have := cmp_eq_zero_symm cmp hanti hb; omega)) hab
        · simp [List.filter_cons, ha, hb]
      · simp [List.filter_cons, ha]

theorem arraySort_stable (hanti : ∀ a b, cmp a b < 0 ↔ 0 < cmp b a)
    (htrans : ∀ a b c, cmp a b ≤ 0 → cmp b c ≤ 0 → cmp a c ≤ 0) (t : α) (l : List α) :
    (arraySort cmp l).filter (fun x => decide (cmp x t = 0))
      = l.filter (fun x => decide (cmp x t = 0)) := by
  induction l with
  | nil => rfl
  | cons a l ih =>
    have hstep := filter_tie_orderedInsert cmp hanti htrans t a (arraySort cmp l)
    simp only [arraySort, List.insertionSort] at hstep ih ⊢
    rw [hstep, List.filter_cons, ih, List.filter_cons]

theorem eq_of_sorted_of_same_ties (hanti : ∀ a b, cmp a b < 0 ↔ 0 < cmp b a)
    (l₁ l₂ : List α)
    (h₁ : l₁.Pairwise (fun a b => cmp a b ≤ 0)) (h₂ : l₂.Pairwise (fun a b => cmp a b ≤ 0))
    (h : ∀ t, l₁.filter (fun x => decide (cmp x t = 0))
          = l₂.filter (fun x => decide (cmp x t = 0))) : l₁ = l₂ := by
  induction l₁ generalizing l₂ with
  | nil =>
    cases l₂ with
    | nil => rfl
    | cons b r₂ =>
      have hb := h b
      simp [List.filter_cons, cmp_self_eq_zero cmp hanti b] at hb
  | cons a r₁ ih =>
    cases l₂ with
    | nil =>
      have ha := h a
      simp [List.filter_cons, cmp_self_eq_zero cmp hanti a] at ha
    | cons b r₂ =>
      have haa := cmp_self_eq_zero cmp hanti a
      have hbb := cmp_self_eq_zero cmp hanti b
      have hba : cmp b a ≤ 0 := by
        have hmem : a ∈ (b :: r₂).filter (fun x => decide (cmp x a = 0)) := by
          rw [← h a]; simp [List.filter_cons, haa]
        rcases List.mem_cons.mp (List.mem_filter.mp hmem).1 with hab | hab
        · subst hab; omega
        · exact (List.pairwise_cons.mp h₂).1 a hab
      have hab : cmp a b ≤ 0 := by
        have hmem : b ∈ (a :: r₁).filter (fun x => decide (cmp x b = 0)) := by
          rw [h b]; simp [List.filter_cons, hbb]
        rcases List.mem_cons.mp (List.mem_filter.mp hmem).1 with hab | hab
        · subst hab; omega
        · exact (List.pairwise_cons.mp h₁).1 b hab
      have htie : cmp a b = 0 := by
        have := hanti a b
        omega
      have heq : a = b := by
        have hb := h b
        simp only [List.filter_cons, htie, hbb, decide_True, if_true] at hb
        exact (List.cons.inj hb).1
      subst heq
      have htail : r₁ = r₂ := by
        refine ih r₂ (List.pairwise_cons.mp h₁).2 (List.pairwise_cons.mp h₂).2 ?_
        intro t
        have ht := h t
        simp only [List.filter_cons] at ht
        by_cases hc : cmp a t = 0
        · simp only [hc, decide_True, if_true] at ht
          exact (List.cons.inj ht).2
        · simpa [hc] using ht
      rw [htail]

/-- For a consistent comparator, the sorted and stable rearrangement of a list
is unique, and `arraySort` computes it. -/
theorem arraySort_unique (hanti : ∀ a b, cmp a b < 0 ↔ 0 < cmp b a)
    (htrans : ∀ a b c, cmp a b ≤ 0 → cmp b c ≤ 0 → cmp a c ≤ 0) (l l' : List α)
    (hsorted : l'.Pairwise (fun a b => cmp a b ≤ 0))
    (hstable : ∀ t, l'.filter (fun x => decide (cmp x t = 0))
          = l.filter (fun x => decide (cmp x t = 0))) :
    l' = arraySort cmp l :=
  eq_of_sorted_of_same_ties cmp hanti l' (arraySort cmp l) hsorted
    (arraySort_sorted cmp hanti htrans l)
    (fun t => (hstable t).trans (arraySort_stable cmp hanti htrans t l).symm)

end Sorting

theorem codeUnitCompare_le_iff (x y : JsString) : codeUnitCompare x y ≤ 0 ↔ x ≤ y := by
  unfold codeUnitCompare
  rcases lt_trichotomy x y with h | h | h
  · simp [h, le_of_lt h]
  · simp [h]
  · simp [h, lt_asymm h, not_le_of_lt h]

theorem codeUnitCompare_anti (a b : JsString) :
    codeUnitCompare a b < 0 ↔ 0 < codeUnitCompare b a := by
  unfold codeUnitCompare
  rcases lt_trichotomy a b with h | h | h
  · simp [h, lt_asymm h]
  · simp [h]
  · simp [h, lt_asymm h]

theorem codeUnitCompare_trans (a b c : JsString) (h₁ : codeUnitCompare a b ≤ 0)
    (h₂ : codeUnitCompare b c ≤ 0) : codeUnitCompare a c ≤ 0 := by
  rw [codeUnitCompare_le_iff] at *
  exact le_trans h₁ h₂

/-- C7: for every collection and filter mode and every consistent title
comparator, with the sort toggle on the displayed sequence is a permutation of
the filtered sequence, ascending by title under the comparator, and the records
whose titles compare equal to any given title appear in their filtered order
(stability); with the sort toggle off the displayed sequence is the filtered
sequence. The view is computed from the state and does not change it. -/
theorem sortedTodos_spec (localeCompare : JsString → JsString → Int)
    (hanti : ∀ a b, localeCompare a b < 0 ↔ 0 < localeCompare b a)
    (htrans : ∀ a b c, localeCompare a b ≤ 0 → localeCompare b c ≤ 0 → localeCompare a c ≤ 0)
    (s : AppState) :
    (sortedTodos localeCompare { s with isSortEnabled := true }).Perm (filteredTodos s) ∧
      (sortedTodos localeCompare { s with isSortEnabled := true }).Pairwise
        (fun a b => localeCompare a.title b.title ≤ 0) ∧
      (∀ title : JsString,
        (sortedTodos localeCompare { s with isSortEnabled := true }).filter
            (fun x => decide (localeCompare x.title title = 0))
          = (filteredTodos s).filter (fun x => decide (localeCompare x.title title = 0))) ∧
      sortedTodos localeCompare { s with isSortEnabled := false } = filteredTodos s := by
  have hon : sortedTodos localeCompare { s with isSortEnabled := true }
      = arraySort (fun a b : Task => localeCompare a.title b.title) (filteredTodos s) := rfl
  have hanti' : ∀ a b : Task,
      localeCompare a.title b.title < 0 ↔ 0 < localeCompare b.title a.title :=
    fun a b => hanti a.title b.title
  have htrans' : ∀ a b c : Task, localeCompare a.title b.title ≤ 0 →
      localeCompare b.title c.title ≤ 0 → localeCompare a.title c.title ≤ 0 :=
    fun a b c => htrans a.title b.title c.title
  rw [hon]
  refine ⟨arraySort_perm _ _, arraySort_sorted _ hanti' htrans' _, ?_, rfl⟩
  intro title
  exact arraySort_stable (fun a b : Task => localeCompare a.title b.title) hanti' htrans'
    ⟨title, false⟩ (filteredTodos s)

theorem sortedTodos_spec_witness :
    sortedTodos codeUnitCompare
        { initialState [⟨utf16 "banana", false⟩, ⟨utf16 "Apple", true⟩, ⟨utf16 "cherry", false⟩]
          with isSortEnabled := true }
      = [⟨utf16 "Apple", true⟩, ⟨utf16 "banana", false⟩, ⟨utf16 "cherry", false⟩] ∧
    (sortedTodos codeUnitCompare
        { initialState [⟨utf16 "banana", false⟩, ⟨utf16 "Apple", true⟩, ⟨utf16 "cherry", false⟩]
          with isSortEnabled := true }).Perm
      (filteredTodos
        (initialState [⟨utf16 "banana", false⟩, ⟨utf16 "Apple", true⟩, ⟨utf16 "cherry", false⟩])) :=
  ⟨by decide,
   (sortedTodos_spec codeUnitCompare codeUnitCompare_anti codeUnitCompare_trans
      (initialState
        [⟨utf16 "banana", false⟩, ⟨utf16 "Apple", true⟩, ⟨utf16 "cherry", false⟩])).1⟩

/-! ## Row positions and the underlying collection -/

/-- With filter `all` and sorting off the displayed sequence is the collection
itself, so there a row position is the position in the collection. -/
theorem sortedTodos_all_unsorted (localeCompare : JsString → JsString → Int) (s : AppState) :
    sortedTodos localeCompare (setFilter "all" { s with isSortEnabled := false }) = s.todos := by
  simp [sortedTodos, filteredTodos, setFilter]

/-- C5 (the code at the failing inputs): `TodoList` hands each row its index in
the displayed sequence and `toggleComplete` applies it to the collection.
With filter `incomplete` on `[a (complete), b (incomplete)]` the only row shows
`b`, and its button toggles `a`, leaving `b` as it was; with sorting on and
collection `[b, a]` the first row shows `a`, and its button toggles `b`. -/
theorem toggleComplete_row_hits_other_record :
    (sortedTodos codeUnitCompare
        (setFilter "incomplete" (initialState [⟨utf16 "a", true⟩, ⟨utf16 "b", false⟩])))[0]?
        = some ⟨utf16 "b", false⟩ ∧
      (toggleComplete 0
        (setFilter "incomplete" (initialState [⟨utf16 "a", true⟩, ⟨utf16 "b", false⟩]))).todos
        = [⟨utf16 "a", false⟩, ⟨utf16 "b", false⟩] ∧
      (sortedTodos codeUnitCompare
        (toggleSort (initialState [⟨utf16 "b", false⟩, ⟨utf16 "a", false⟩])))[0]?
        = some ⟨utf16 "a", false⟩ ∧
      (toggleComplete 0
        (toggleSort (initialState [⟨utf16 "b", false⟩, ⟨utf16 "a", false⟩]))).todos
        = [⟨utf16 "b", true⟩, ⟨utf16 "a", false⟩] := by
  decide

/-! ## Stale timers -/

/-- On any collection, with any two deletions `d` milliseconds apart
(`0 < d < 3000`) and no timer pending beforehand, the timer of the first
deletion fires 3000 ms after it and empties the slot filled by the second
deletion, whose own timer is still pending. -/
theorem stale_timer_clears_slot_general (s : AppState) (i j d : Nat)
    (htimers : s.timers = []) (hd₀ : 0 < d) (hd : d < 3000) :
    (elapse (3000 - d) (deleteTask j (elapse d (deleteTask i s)))).deletedTask = none ∧
      (elapse (3000 - d) (deleteTask j (elapse d (deleteTask i s)))).showUndo = false ∧
      (elapse (3000 - d) (deleteTask j (elapse d (deleteTask i s)))).timers
        = [s.now + d + 3000] := by
  have h₁ : ¬ s.now + 3000 ≤ s.now + d := by omega
  have h₂ : s.now + 3000 ≤ s.now + d + (3000 - d) := by omega
  have h₃ : ¬ s.now + d + 3000 ≤ s.now + d + (3000 - d) := by omega
  have h₄ : ¬ s.now + d + (3000 - d) < s.now + 3000 := by omega
  simp [elapse, deleteTask, timerCallback, htimers, List.filter_cons, h₁, h₂, h₃, h₄, hd, hd₀]

/-- C9 (the code at the failing input): delete `A` at time 0, delete `B` at
time 1000. At time 3000 the timer armed for `A` fires while the one armed for
`B` (due at 4000) is still pending: the callback clears the slot that holds `B`
and the undo flag, and `undoDelete` no longer restores `B`. -/
theorem stale_timer_clears_reused_slot :
    (deleteTask 0 (elapse 1000 (deleteTask 0
        (initialState [⟨utf16 "A", false⟩, ⟨utf16 "B", false⟩])))).deletedTask
        = some ⟨utf16 "B", false⟩ ∧
      (elapse 2000 (deleteTask 0 (elapse 1000 (deleteTask 0
        (initialState [⟨utf16 "A", false⟩, ⟨utf16 "B", false⟩]))))).now = 3000 ∧
      (elapse 2000 (deleteTask 0 (elapse 1000 (deleteTask 0
        (initialState [⟨utf16 "A", false⟩, ⟨utf16 "B", false⟩]))))).timers = [4000] ∧
      (elapse 2000 (deleteTask 0 (elapse 1000 (deleteTask 0
        (initialState [⟨utf16 "A", false⟩, ⟨utf16 "B", false⟩]))))).deletedTask = none ∧
      (elapse 2000 (deleteTask 0 (elapse 1000 (deleteTask 0
        (initialState [⟨utf16 "A", false⟩, ⟨utf16 "B", false⟩]))))).showUndo = false ∧
      (undoDelete (elapse 2000 (deleteTask 0 (elapse 1000 (deleteTask 0
        (initialState [⟨utf16 "A", false⟩, ⟨utf16 "B", false⟩])))))).todos = [] := by
  decide

/-! ## Persistence round trip -/

theorem quoteBody_title : quoteBody (utf16 "title") = utf16 "title" := by decide

theorem quoteBody_isComplete : quoteBody (utf16 "isComplete") = utf16 "isComplete" := by decide

theorem length_skipWhiteSpace_le (input : JsString) :
    (skipWhiteSpace input).length ≤ input.length :=
  (List.dropWhile_sublist _).length_le

theorem length_of_skipWhiteSpace_eq_cons {input rest : JsString} {c : CodeUnit}
    (h : skipWhiteSpace input = c :: rest) : rest.length < input.length := by
  have := length_skipWhiteSpace_le input
  rw [h, List.length_cons] at this
  omega

theorem parseStringBody_shorter_aux (n : Nat) :
    ∀ input : JsString, input.length ≤ n →
      ∀ s out, parseStringBody input = some (s, out) → out.length < input.length := by
  induction n with
  | zero =>
    intro input hlen s out h
    obtain rfl : input = [] := List.length_eq_zero.mp (by omega)
    simp [parseStringBody] at h
  | succ n ih =>
    intro input hlen s out h
    rw [parseStringBody.eq_def] at h
    split at h
    · cases h
    · rename_i c rest
      simp only [List.length_cons] at hlen ⊢
      split_ifs at h with h1 h2 h3
      · cases h; omega
      · split at h
        · cases h
        · rename_i e rest₁
          simp only [List.length_cons] at hlen ⊢
          split_ifs at h with h4
          · split at h
            · rename_i a b c d rest₂
              split at h
              · rename_i u s' out' hu hs
                have := ih rest₂ (by simp only [List.length_cons] at hlen; omega) _ _ hs
                cases h
                simp only [List.length_cons]
                omega
              · cases h
            · cases h
          · split at h
            · rename_i u s' out' hu hs
              have := ih rest₁ (by omega) _ _ hs
              cases h
              omega
            · cases h
      · split at h
        · rename_i s' out' hs
          have := ih rest (by omega) _ _ hs
          cases h
          omega
        · cases h


theorem parseStringBody_shorter {input s out : JsString}
    (h : parseStringBody input = some (s, out)) : out.length < input.length :=
  parseStringBody_shorter_aux input.length input (Nat.le_refl _) s out h

theorem length_takeDigits_le (input : JsString) :
    (takeDigits input).2.length ≤ input.length := by
  induction input with
  | nil => simp [takeDigits]
  | cons c rest ih =>
    rw [takeDigits]
    split
    · simp only [List.length_cons]; omega
    · simp

theorem parseFraction_le {input out : JsString} {ds : List Nat}
    (h : parseFraction input = some (ds, out)) : out.length ≤ input.length := by
  unfold parseFraction at h
  split at h
  · cases h; simp
  · rename_i c rest
    split_ifs at h
    · have hle := length_takeDigits_le rest
      split at h
      · cases h
      · rename_i ds' out' _ heq
        cases h
        rw [heq] at hle
        simp only [List.length_cons]
        simp only at hle
        omega
    · cases h; simp

theorem length_optionalSign_le (input : JsString) :
    (optionalSign input).2.length ≤ input.length := by
  unfold optionalSign
  split
  · simp
  · split_ifs <;> simp

theorem length_optionalMinus_le (input : JsString) :
    (optionalMinus input).2.length ≤ input.length := by
  unfold optionalMinus
  split
  · simp
  · split_ifs <;> simp

theorem length_parseInteger_le (d : Nat) (rest : JsString) :
    (parseInteger d rest).2.length ≤ rest.length := by
  unfold parseInteger
  split_ifs
  · simp
  · exact length_takeDigits_le rest

theorem parseExponent_le {input out : JsString} {e : Int}
    (h : parseExponent input = some (e, out)) : out.length ≤ input.length := by
  unfold parseExponent at h
  split at h
  · cases h; simp
  · rename_i c rest
    by_cases hc : c.val = 0x65 ∨ c.val = 0x45
    · rw [if_pos hc] at h
      have h1 := length_optionalSign_le rest
      have h2 := length_takeDigits_le (optionalSign rest).2
      split at h
      · cases h
      · rename_i ds' out' _ heq
        cases h
        rw [heq] at h2
        simp only [List.length_cons]
        simp only at h2
        omega
    · rw [if_neg hc] at h
      cases h; simp

theorem parseNumber_shorter {input out : JsString} {v : JsValue}
    (h : parseNumber input = some (v, out)) : out.length < input.length := by
  unfold parseNumber at h
  have h0 := length_optionalMinus_le input
  split at h
  · cases h
  · rename_i c rest hc
    rw [hc, List.length_cons] at h0
    split at h
    · cases h
    · rename_i d _
      have h1 := length_parseInteger_le d rest
      split at h
      · cases h
      · rename_i frac afterFrac hf
        have h2 := parseFraction_le hf
        split at h
        · cases h
        · rename_i e out' he
          have h3 := parseExponent_le he
          cases h
          omega

theorem expectLiteral_length {lit input out : JsString}
    (h : expectLiteral lit input = some out) : out.length + lit.length = input.length := by
  unfold expectLiteral at h
  split_ifs at h with hl
  cases h
  have hlen : lit.length ≤ input.length := by
    have := congrArg List.length hl
    rw [List.length_take] at this
    omega
  rw [List.length_drop]
  omega


/-- Every reader consumes at least one code unit when it succeeds. -/
theorem parse_shorter (fuel : Nat) :
    (∀ input v out, parseValue fuel input = some (v, out) → out.length < input.length) ∧
    (∀ input vs out, parseElements fuel input = some (vs, out) → out.length < input.length) ∧
    (∀ input ms out, parseMembers fuel input = some (ms, out) → out.length < input.length) := by
  induction fuel with
  | zero =>
    refine ⟨?_, ?_, ?_⟩ <;> intro input v out h
    · simp [parseValue] at h
    · simp [parseElements] at h
    · simp [parseMembers] at h
  | succ fuel ih =>
    obtain ⟨ihV, ihE, ihM⟩ := ih
    have hlt : (utf16 "true").length = 4 := by decide
    have hlf : (utf16 "false").length = 5 := by decide
    have hln : (utf16 "null").length = 4 := by decide
    refine ⟨?_, ?_, ?_⟩
    · intro input v out h
      rw [parseValue] at h
      split at h
      · cases h
      · rename_i c rest hskip
        have hrest := length_of_skipWhiteSpace_eq_cons hskip
        split_ifs at h
        · split at h
          · cases h
          · rename_i d rest₁ hskip₁
            have hrest₁ := length_of_skipWhiteSpace_eq_cons hskip₁
            split_ifs at h
            · cases h; omega
            · obtain ⟨r, hr, hrv⟩ := Option.map_eq_some'.mp h
              have := ihE _ _ _ hr
              cases hrv
              omega
        · split at h
          · cases h
          · rename_i d rest₁ hskip₁
            have hrest₁ := length_of_skipWhiteSpace_eq_cons hskip₁
            split_ifs at h
            · cases h; omega
            · obtain ⟨r, hr, hrv⟩ := Option.map_eq_some'.mp h
              have := ihM _ _ _ hr
              cases hrv
              omega
        · obtain ⟨r, hr, hrv⟩ := Option.map_eq_some'.mp h
          have := parseStringBody_shorter hr
          cases hrv
          omega
        · obtain ⟨r, hr, hrv⟩ := Option.map_eq_some'.mp h
          have := expectLiteral_length hr
          cases hrv
          simp only [List.length_cons] at this
          omega
        · obtain ⟨r, hr, hrv⟩ := Option.map_eq_some'.mp h
          have := expectLiteral_length hr
          cases hrv
          simp only [List.length_cons] at this
          omega
        · obtain ⟨r, hr, hrv⟩ := Option.map_eq_some'.mp h
          have := expectLiteral_length hr
          cases hrv
          simp only [List.length_cons] at this
          omega
        · have := parseNumber_shorter h
          simp only [List.length_cons] at this
          omega
    · intro input vs out h
      rw [parseElements] at h
      split at h
      · cases h
      · rename_i v rest hv
        have hrest := ihV _ _ _ hv
        split at h
        · cases h
        · rename_i c rest₁ hskip
          have hrest₁ := length_of_skipWhiteSpace_eq_cons hskip
          split_ifs at h
          · cases h; omega
          · obtain ⟨r, hr, hrv⟩ := Option.map_eq_some'.mp h
            have := ihE _ _ _ hr
            cases hrv
            omega
    · intro input ms out h
      rw [parseMembers] at h
      split at h
      · cases h
      · rename_i c rest hskip
        have hrest := length_of_skipWhiteSpace_eq_cons hskip
        split_ifs at h
        split at h
        · cases h
        · rename_i key rest₁ hkey
          have hrest₁ := parseStringBody_shorter hkey
          split at h
          · cases h
          · rename_i d rest₂ hskip₂
            have hrest₂ := length_of_skipWhiteSpace_eq_cons hskip₂
            split_ifs at h
            split at h
            · cases h
            · rename_i v rest₃ hv
              have hrest₃ := ihV _ _ _ hv
              split at h
              · cases h
              · rename_i e rest₄ hskip₄
                have hrest₄ := length_of_skipWhiteSpace_eq_cons hskip₄
                split_ifs at h
                · cases h; omega
                · obtain ⟨r, hr, hrv⟩ := Option.map_eq_some'.mp h
                  have := ihM _ _ _ hr
                  cases hrv
                  omega


/-- The result of the readers does not depend on the fuel once it exceeds twice
the length of the input. -/
theorem parse_fuel_adequate (fuel : Nat) :
    (∀ input f, 2 * input.length + 1 ≤ fuel → 2 * input.length + 1 ≤ f →
      parseValue fuel input = parseValue f input) ∧
    (∀ input f, 2 * input.length + 2 ≤ fuel → 2 * input.length + 2 ≤ f →
      parseElements fuel input = parseElements f input) ∧
    (∀ input f, 2 * input.length + 2 ≤ fuel → 2 * input.length + 2 ≤ f →
      parseMembers fuel input = parseMembers f input) := by
  induction fuel with
  | zero =>
    refine ⟨?_, ?_, ?_⟩ <;> intro input f h₁ h₂ <;> omega
  | succ fuel ih =>
    obtain ⟨ihV, ihE, ihM⟩ := ih
    refine ⟨?_, ?_, ?_⟩
    · intro input f h₁ h₂
      obtain ⟨g, rfl⟩ : ∃ g, f = g + 1 := ⟨f - 1, by omega⟩
      rw [parseValue, parseValue]
      cases hskip : skipWhiteSpace input with
      | nil => rfl
      | cons c rest =>
        have hrest := length_of_skipWhiteSpace_eq_cons hskip
        have hE := ihE rest g (by omega) (by omega)
        have hM := ihM rest g (by omega) (by omega)
        simp only [hE, hM]
    · intro input f h₁ h₂
      obtain ⟨g, rfl⟩ : ∃ g, f = g + 1 := ⟨f - 1, by omega⟩
      rw [parseElements, parseElements, ihV input g (by omega) (by omega)]
      cases hv : parseValue g input with
      | none => rfl
      | some r =>
        obtain ⟨v, rest⟩ := r
        have hrest := (parse_shorter g).1 _ _ _ hv
        dsimp only
        cases hskip : skipWhiteSpace rest with
        | nil => rfl
        | cons c rest₁ =>
          have hrest₁ := length_of_skipWhiteSpace_eq_cons hskip
          have hE := ihE rest₁ g (by omega) (by omega)
          simp only [hE]
    · intro input f h₁ h₂
      obtain ⟨g, rfl⟩ : ∃ g, f = g + 1 := ⟨f - 1, by omega⟩
      rw [parseMembers, parseMembers]
      cases hskip : skipWhiteSpace input with
      | nil => rfl
      | cons c rest =>
        have hrest := length_of_skipWhiteSpace_eq_cons hskip
        simp only
        split_ifs
        · cases hkey : parseStringBody rest with
          | none => rfl
          | some r =>
            obtain ⟨key, rest₁⟩ := r
            have hrest₁ := parseStringBody_shorter hkey
            dsimp only
            cases hskip₂ : skipWhiteSpace rest₁ with
            | nil => rfl
            | cons d rest₂ =>
              have hrest₂ := length_of_skipWhiteSpace_eq_cons hskip₂
              simp only
              split_ifs
              · rw [ihV rest₂ g (by omega) (by omega)]
                cases hv : parseValue g rest₂ with
                | none => rfl
                | some r =>
                  obtain ⟨v, rest₃⟩ := r
                  have hrest₃ := (parse_shorter g).1 _ _ _ hv
                  dsimp only
                  cases hskip₄ : skipWhiteSpace rest₃ with
                  | nil => rfl
                  | cons e rest₄ =>
                    have hrest₄ := length_of_skipWhiteSpace_eq_cons hskip₄
                    have hM := ihM rest₄ g (by omega) (by omega)
                    simp only [hM]
              · rfl
        · rfl

/-- `JSON.parse` with any larger fuel gives the same result: the fuel of
`jsonParse` never cuts a reading short. -/
theorem jsonParse_fuel_irrelevant (text : JsString) (fuel : Nat)
    (h : 2 * text.length + 1 ≤ fuel) :
    parseValue fuel text = parseValue (2 * text.length + 1) text :=
  (parse_fuel_adequate fuel).1 text _ h (Nat.le_refl _)

/-! ### The initializer -/

/-- A collection is determined by its JavaScript value. -/
theorem todosToJs_injective (a b : List Task) (h : todosToJs a = todosToJs b) : a = b := by
  have hmap : a.map taskToJs = b.map taskToJs := by
    simpa [todosToJs] using h
  refine List.map_injective_iff.mpr ?_ hmap
  intro t u htu
  cases t
  cases u
  simp only [taskToJs, JsValue.obj.injEq, List.cons.injEq, Prod.mk.injEq, JsValue.str.injEq,
    JsValue.bool.injEq, and_true, true_and] at htu
  rw [htu.1, htu.2]

end TodoApp
